import Mathlib

/-!
Shallow embedding of `juju/txnstats` (src/txnstats.go, src/doc.go).

Go machine integers here are counts and lengths, all non-negative and far
from overflow in any realistic run, so they are modelled as `Nat`; the
transaction state code is a Go `int` used as an enum-like value and is
modelled as `Int`.  Streams produced by MongoDB cursors are modelled as
Lean lists (the sequence of documents the iterator yields), with an
optional iterator error reported after the stream ends, mirroring
`iter.Err()`.
-/

namespace Txnstats

/-- Embedding of `docDoc` (src/doc.go): only the `txn-queue` field is
selected by the scanner. -/
structure docDoc where
  Queue : List String
  deriving Repr, DecidableEq

/-- Embedding of `txn.Op`: the scanners only ever take the length of the
operation list, but we keep the collection/document identity fields of the
wire type. -/
structure TxnOp where
  C : String
  Id : String
  deriving Repr, DecidableEq

/-- Embedding of `txnDoc` (src/doc.go): the in-progress scanner selects the
`s` (state) and `o` (ops) fields. -/
structure txnDoc where
  Id : String
  State : Int
  Ops : List TxnOp
  Nonce : String
  deriving Repr, DecidableEq

/-- Embedding of `CollectionStats` (src/txnstats.go). -/
structure CollectionStats where
  DocCount : Nat
  MaxQueued : Nat
  MinQueued : Nat
  TotalQueued : Nat
  deriving Repr, DecidableEq

/-- Embedding of `LogStats` (src/txnstats.go). -/
structure LogStats where
  DocCount : Nat
  deriving Repr, DecidableEq

/-- The loop body of `getCollectionStats`: iterate over the streamed
documents carrying the `first` flag and the accumulated stats, exactly as
the Go `for first := true; iter.Next(&doc);` loop does. -/
def collScanLoop : List docDoc → Bool → CollectionStats → CollectionStats
  | [], _, stats => stats
  | doc :: rest, first, stats =>
    let q := doc.Queue.length
    let stats1 : CollectionStats :=
      { stats with DocCount := stats.DocCount + 1,
                   TotalQueued := stats.TotalQueued + q }
    if first then
      collScanLoop rest false { stats1 with MaxQueued := q, MinQueued := q }
    else
      collScanLoop rest false
        { stats1 with
          MaxQueued := if q > stats1.MaxQueued then q else stats1.MaxQueued,
          MinQueued := if q < stats1.MinQueued then q else stats1.MinQueued }

/-- The pure part of `getCollectionStats` (src/txnstats.go:143-170): the
stats computed from the documents the cursor streams. -/
def collStatsOf (docs : List docDoc) : CollectionStats :=
  collScanLoop docs true ⟨0, 0, 0, 0⟩

/-! ### Generic facts about `foldl max` / `foldl min` over `Nat` lists -/

theorem le_foldl_max (l : List Nat) (a : Nat) : a ≤ l.foldl max a := by
  induction l generalizing a with
  | nil => exact Nat.le_refl a
  | cons x xs ih => exact Nat.le_trans (Nat.le_max_left a x) (ih (max a x))

theorem mem_le_foldl_max (l : List Nat) (a x : Nat) (hx : x ∈ l) :
    x ≤ l.foldl max a := by
  induction l generalizing a with
  | nil => cases hx
  | cons y ys ih =>
    rcases List.mem_cons.mp hx with h | h
    · subst h
      exact Nat.le_trans (Nat.le_max_right a x) (le_foldl_max ys (max a x))
    · rw [List.foldl_cons]
      exact ih (max a y) h

theorem foldl_max_mem (l : List Nat) (a : Nat) :
    l.foldl max a = a ∨ l.foldl max a ∈ l := by
  induction l generalizing a with
  | nil => exact Or.inl rfl
  | cons x xs ih =>
    rcases ih (max a x) with h | h
    · rcases Nat.le_total a x with hax | hxa
      · right
        rw [List.foldl_cons, h, Nat.max_eq_right hax]
        exact List.mem_cons_self x xs
      · left
        rw [List.foldl_cons, h, Nat.max_eq_left hxa]
    · right
      exact List.mem_cons_of_mem x h

theorem foldl_min_le (l : List Nat) (a : Nat) : l.foldl min a ≤ a := by
  induction l generalizing a with
  | nil => exact Nat.le_refl a
  | cons x xs ih => exact Nat.le_trans (ih (min a x)) (Nat.min_le_left a x)

theorem foldl_min_le_mem (l : List Nat) (a x : Nat) (hx : x ∈ l) :
    l.foldl min a ≤ x := by
  induction l generalizing a with
  | nil => cases hx
  | cons y ys ih =>
    rcases List.mem_cons.mp hx with h | h
    · subst h
      exact Nat.le_trans (foldl_min_le ys (min a x)) (Nat.min_le_right a x)
    · rw [List.foldl_cons]
      exact ih (min a y) h

theorem foldl_min_mem (l : List Nat) (a : Nat) :
    l.foldl min a = a ∨ l.foldl min a ∈ l := by
  induction l generalizing a with
  | nil => exact Or.inl rfl
  | cons x xs ih =>
    rcases ih (min a x) with h | h
    · rcases Nat.le_total a x with hax | hxa
      · left
        rw [List.foldl_cons, h, Nat.min_eq_left hax]
      · right
        rw [List.foldl_cons, h, Nat.min_eq_right hxa]
        exact List.mem_cons_self x xs
    · right
      exact List.mem_cons_of_mem x h

/-! ### The collection-scan loop invariant -/

/-- Queue lengths of a streamed document list. -/
def queueLens (docs : List docDoc) : List Nat :=
  docs.map (fun d => d.Queue.length)

theorem ite_gt_eq_max (m q : Nat) : (if q > m then q else m) = max m q := by
  rcases Nat.lt_or_ge m q with h | h
  · rw [if_pos h, Nat.max_eq_right (Nat.le_of_lt h)]
  · rw [if_neg (Nat.not_lt.mpr h), Nat.max_eq_left h]

theorem ite_lt_eq_min (m q : Nat) : (if q < m then q else m) = min m q := by
  rcases Nat.lt_or_ge q m with h | h
  · rw [if_pos h, Nat.min_eq_right (Nat.le_of_lt h)]
  · rw [if_neg (Nat.not_lt.mpr h), Nat.min_eq_left h]

theorem collScanLoop_false_spec (docs : List docDoc) (s : CollectionStats) :
    collScanLoop docs false s =
      { DocCount := s.DocCount + docs.length,
        MaxQueued := (queueLens docs).foldl max s.MaxQueued,
        MinQueued := (queueLens docs).foldl min s.MinQueued,
        TotalQueued := s.TotalQueued + (queueLens docs).sum } := by
  induction docs generalizing s with
  | nil => simp [collScanLoop, queueLens]
  | cons d rest ih =>
    simp only [collScanLoop, queueLens, List.map_cons, List.foldl_cons,
      List.length_cons, List.sum_cons, if_neg Bool.false_ne_true,
      ite_gt_eq_max, ite_lt_eq_min]
    rw [ih]
    dsimp only [queueLens]
    congr 1 <;> omega

theorem collStatsOf_cons (d : docDoc) (rest : List docDoc) :
    collStatsOf (d :: rest) =
      { DocCount := 1 + rest.length,
        MaxQueued := (queueLens rest).foldl max d.Queue.length,
        MinQueued := (queueLens rest).foldl min d.Queue.length,
        TotalQueued := d.Queue.length + (queueLens rest).sum } := by
  have h : collStatsOf (d :: rest)
      = collScanLoop rest false
          ⟨0 + 1, d.Queue.length, d.Queue.length, 0 + d.Queue.length⟩ := rfl
  rw [h, collScanLoop_false_spec]
  dsimp only [queueLens]
  congr 1
  omega

/-! ### The transaction state enum (src/doc.go) -/

/-- `tinvalid` (src/doc.go:37). -/
def tinvalid : Int := 0
/-- `tpreparing` (src/doc.go:38). -/
def tpreparing : Int := 1
/-- `tprepared` (src/doc.go:39). -/
def tprepared : Int := 2
/-- `taborting` (src/doc.go:40). -/
def taborting : Int := 3
/-- `tapplying` (src/doc.go:41). -/
def tapplying : Int := 4
/-- `taborted` (src/doc.go:42). -/
def taborted : Int := 5
/-- `tapplied` (src/doc.go:43). -/
def tapplied : Int := 6
/-- `numStates` (src/doc.go:44). -/
def numStates : Int := 7

/-- Embedding of the method `state.String` (src/doc.go:51-69): the switch
over the seven named codes, falling through to
`fmt.Sprintf("unknown state: %d", s)`. -/
def stateString (s : Int) : String :=
  if s = tinvalid then "invalid"
  else if s = tpreparing then "preparing"
  else if s = tprepared then "prepared"
  else if s = taborting then "aborting"
  else if s = tapplying then "applying"
  else if s = taborted then "aborted"
  else if s = tapplied then "applied"
  else "unknown state: " ++ toString s

/-- The seven names produced by the `state.String` switch. -/
def stateNames : List String :=
  ["invalid", "preparing", "prepared", "aborting", "applying", "aborted",
   "applied"]

theorem unknown_render_ne (t name : String) (hlen : name.length < 15) :
    "unknown state: " ++ t ≠ name := by
  intro h
  have hl := congrArg String.length h
  rw [String.length_append] at hl
  have h15 : ("unknown state: " : String).length = 15 := by decide
  omega

theorem stateString_unknown (s : Int) (h : s < 0 ∨ 6 < s) :
    stateString s = "unknown state: " ++ toString s := by
  have h0 : ¬s = tinvalid := by simp only [tinvalid]; omega
  have h1 : ¬s = tpreparing := by simp only [tpreparing]; omega
  have h2 : ¬s = tprepared := by simp only [tprepared]; omega
  have h3 : ¬s = taborting := by simp only [taborting]; omega
  have h4 : ¬s = tapplying := by simp only [tapplying]; omega
  have h5 : ¬s = taborted := by simp only [taborted]; omega
  have h6 : ¬s = tapplied := by simp only [tapplied]; omega
  simp only [stateString, if_neg h0, if_neg h1, if_neg h2, if_neg h3,
    if_neg h4, if_neg h5, if_neg h6]

theorem queueLens_cons (d : docDoc) (rest : List docDoc) :
    queueLens (d :: rest) = d.Queue.length :: queueLens rest := rfl

/-- **C1.** For every finite stream of documents with queue lengths
`[q1..qn]` scanned by `getCollectionStats`, the returned `CollectionStats`
has `TotalQueued = Σ qi`, `DocCount = n`, and for `n > 0` `MaxQueued` is the
maximum and `MinQueued` the minimum of the `qi` (both extrema are attained
by some document and bound every document); for `n = 0` all four fields are
zero. -/
theorem getCollectionStats_spec (docs : List docDoc) :
    (collStatsOf docs).TotalQueued = (queueLens docs).sum ∧
    (collStatsOf docs).DocCount = docs.length ∧
    (docs = [] → collStatsOf docs = ⟨0, 0, 0, 0⟩) ∧
    (docs ≠ [] →
      ((collStatsOf docs).MaxQueued ∈ queueLens docs ∧
        ∀ q ∈ queueLens docs, q ≤ (collStatsOf docs).MaxQueued) ∧
      ((collStatsOf docs).MinQueued ∈ queueLens docs ∧
        ∀ q ∈ queueLens docs, (collStatsOf docs).MinQueued ≤ q)) := by
  cases docs with
  | nil => exact ⟨rfl, rfl, fun _ => rfl, fun h => absurd rfl h⟩
  | cons d rest =>
    rw [collStatsOf_cons]
    dsimp only
    refine ⟨?_, ?_, ?_, ?_⟩
    · rw [queueLens_cons, List.sum_cons]
    · rw [List.length_cons]
      omega
    · intro h
      exact (List.cons_ne_nil d rest h).elim
    · intro _
      rw [queueLens_cons]
      refine ⟨⟨?_, ?_⟩, ?_, ?_⟩
      · rcases foldl_max_mem (queueLens rest) d.Queue.length with h | h
        · rw [h]
          exact List.mem_cons_self _ _
        · exact List.mem_cons_of_mem _ h
      · intro q hq
        rcases List.mem_cons.mp hq with h | h
        · subst h
          exact le_foldl_max _ _
        · exact mem_le_foldl_max _ _ _ h
      · rcases foldl_min_mem (queueLens rest) d.Queue.length with h | h
        · rw [h]
          exact List.mem_cons_self _ _
        · exact List.mem_cons_of_mem _ h
      · intro q hq
        rcases List.mem_cons.mp hq with h | h
        · subst h
          exact foldl_min_le _ _
        · exact foldl_min_le_mem _ _ _ h

/-- Concrete check of `getCollectionStats_spec` on the stream with queue
lengths `[2, 0, 3]`. -/
theorem getCollectionStats_spec_witness :
    (([⟨["a", "b"]⟩, ⟨[]⟩, ⟨["c", "d", "e"]⟩] : List docDoc) ≠ [] ∧
      (((collStatsOf [⟨["a", "b"]⟩, ⟨[]⟩, ⟨["c", "d", "e"]⟩]).MaxQueued ∈
            queueLens [⟨["a", "b"]⟩, ⟨[]⟩, ⟨["c", "d", "e"]⟩] ∧
        ∀ q ∈ queueLens [⟨["a", "b"]⟩, ⟨[]⟩, ⟨["c", "d", "e"]⟩],
          q ≤ (collStatsOf [⟨["a", "b"]⟩, ⟨[]⟩, ⟨["c", "d", "e"]⟩]).MaxQueued) ∧
       ((collStatsOf [⟨["a", "b"]⟩, ⟨[]⟩, ⟨["c", "d", "e"]⟩]).MinQueued ∈
            queueLens [⟨["a", "b"]⟩, ⟨[]⟩, ⟨["c", "d", "e"]⟩] ∧
        ∀ q ∈ queueLens [⟨["a", "b"]⟩, ⟨[]⟩, ⟨["c", "d", "e"]⟩],
          (collStatsOf [⟨["a", "b"]⟩, ⟨[]⟩, ⟨["c", "d", "e"]⟩]).MinQueued ≤ q))) :=
  ⟨by decide,
   (getCollectionStats_spec [⟨["a", "b"]⟩, ⟨[]⟩, ⟨["c", "d", "e"]⟩]).2.2.2
     (by decide)⟩

/-- **C4.** `state.String` is a pure total function on integer codes: the
seven known codes map to their fixed names, every other integer maps to the
`unknown state: <code>` rendering, which differs from all seven names, and
equal inputs give equal outputs. -/
theorem state_String_spec :
    (stateString tinvalid = "invalid" ∧ stateString tpreparing = "preparing" ∧
      stateString tprepared = "prepared" ∧ stateString taborting = "aborting" ∧
      stateString tapplying = "applying" ∧ stateString taborted = "aborted" ∧
      stateString tapplied = "applied") ∧
    (∀ s : Int, s < 0 ∨ 6 < s →
      stateString s = "unknown state: " ++ toString s ∧
      ∀ name ∈ stateNames, stateString s ≠ name) ∧
    (∀ a b : Int, a = b → stateString a = stateString b) := by
  refine ⟨by decide, ?_, fun a b h => by rw [h]⟩
  intro s hs
  refine ⟨stateString_unknown s hs, ?_⟩
  intro name hn
  rw [stateString_unknown s hs]
  simp only [stateNames] at hn
  fin_cases hn <;> exact unknown_render_ne _ _ (by decide)

/-- Concrete check of `state_String_spec` at the out-of-range code `7`
(the value of `numStates`). -/
theorem state_String_spec_witness :
    ((7 : Int) < 0 ∨ (6 : Int) < 7) ∧
    (stateString 7 = "unknown state: " ++ toString (7 : Int) ∧
      ∀ name ∈ stateNames, stateString 7 ≠ name) :=
  ⟨Or.inr (by decide), state_String_spec.2.1 7 (Or.inr (by decide))⟩

/-! ### The `States` map of `getInProgressStats`

Go's `map[state]int` is modelled as an association list with integer keys.
Only the operations the program performs are modelled: `stats.States[k]++`
(`mapIncr`), indexed read with the zero default (`mapGet`), key membership
(`mapHasKey`), and the value/key views used to state the claims. -/

/-- `m[k]++` on a Go map: bump the entry for `k`, inserting `1` when the
key is absent. -/
def mapIncr : List (Int × Nat) → Int → List (Int × Nat)
  | [], k => [(k, 1)]
  | (a, v) :: rest, k =>
    if a = k then (a, v + 1) :: rest else (a, v) :: mapIncr rest k

/-- `m[k]` on a Go map, with the zero default for an absent key. -/
def mapGet : List (Int × Nat) → Int → Nat
  | [], _ => 0
  | (a, v) :: rest, k => if a = k then v else mapGet rest k

/-- Key membership in a Go map. -/
def mapHasKey : List (Int × Nat) → Int → Bool
  | [], _ => false
  | (a, _) :: rest, k => if a = k then true else mapHasKey rest k

/-- The multiset of stored values (for `Σ States.values()`). -/
def mapVals (m : List (Int × Nat)) : List Nat := m.map Prod.snd

/-- The stored keys. -/
def mapKeys (m : List (Int × Nat)) : List Int := m.map Prod.fst

theorem mapGet_mapIncr (m : List (Int × Nat)) (k j : Int) :
    mapGet (mapIncr m k) j = if j = k then mapGet m j + 1 else mapGet m j := by
  induction m with
  | nil =>
    by_cases h : j = k
    · subst h
      simp [mapIncr, mapGet]
    · simp [mapIncr, mapGet, h, Ne.symm h]
  | cons e rest ih =>
    obtain ⟨a, v⟩ := e
    by_cases hak : a = k
    · subst hak
      by_cases hja : j = a
      · subst hja
        simp [mapIncr, mapGet]
      · simp [mapIncr, mapGet, hja, Ne.symm hja]
    · by_cases hja : j = a
      · subst hja
        simp [mapIncr, mapGet, hak]
      · simp [mapIncr, mapGet, hak, Ne.symm hja, hja, ih]

theorem mapVals_sum_mapIncr (m : List (Int × Nat)) (k : Int) :
    (mapVals (mapIncr m k)).sum = (mapVals m).sum + 1 := by
  induction m with
  | nil => simp [mapIncr, mapVals]
  | cons e rest ih =>
    obtain ⟨a, v⟩ := e
    simp only [mapVals] at ih ⊢
    by_cases hak : a = k
    · subst hak
      simp [mapIncr]
      omega
    · simp [mapIncr, hak, ih]
      omega

theorem mapHasKey_mapIncr (m : List (Int × Nat)) (k j : Int) :
    mapHasKey (mapIncr m k) j = true ↔
      (mapHasKey m j = true ∨ j = k) := by
  induction m with
  | nil =>
    by_cases h : j = k
    · subst h
      simp [mapIncr, mapHasKey]
    · simp [mapIncr, mapHasKey, h, Ne.symm h]
  | cons e rest ih =>
    obtain ⟨a, v⟩ := e
    by_cases hak : a = k
    · subst hak
      by_cases hja : j = a
      · subst hja
        simp [mapIncr, mapHasKey]
      · simp [mapIncr, mapHasKey, hja, Ne.symm hja]
    · by_cases hja : j = a
      · subst hja
        simp [mapIncr, mapHasKey, hak]
      · simp [mapIncr, mapHasKey, hak, Ne.symm hja, hja, ih]

theorem mapKeys_mapIncr (m : List (Int × Nat)) (k : Int) :
    mapKeys (mapIncr m k) =
      if mapHasKey m k then mapKeys m else mapKeys m ++ [k] := by
  induction m with
  | nil => simp [mapIncr, mapHasKey, mapKeys]
  | cons e rest ih =>
    obtain ⟨a, v⟩ := e
    simp only [mapKeys] at ih ⊢
    by_cases hak : a = k
    · subst hak
      simp [mapIncr, mapHasKey]
    · simp only [mapIncr, mapHasKey, if_neg hak, List.map_cons]
      rw [ih]
      by_cases hrest : mapHasKey rest k
      · simp [hrest]
      · simp [hrest]

theorem mapHasKey_eq_mem_keys (m : List (Int × Nat)) (k : Int) :
    mapHasKey m k = true ↔ k ∈ mapKeys m := by
  induction m with
  | nil => simp [mapHasKey, mapKeys]
  | cons e rest ih =>
    obtain ⟨a, v⟩ := e
    by_cases hak : a = k
    · subst hak
      simp [mapHasKey, mapKeys]
    · simp [mapHasKey, mapKeys, hak, Ne.symm hak, ih]

theorem mapKeys_nodup_mapIncr (m : List (Int × Nat)) (k : Int)
    (h : (mapKeys m).Nodup) : (mapKeys (mapIncr m k)).Nodup := by
  rw [mapKeys_mapIncr]
  by_cases hk : mapHasKey m k
  · rw [if_pos hk]
    exact h
  · rw [if_neg hk]
    have hnot : k ∉ mapKeys m := fun hmem =>
      hk ((mapHasKey_eq_mem_keys m k).mpr hmem)
    simp [List.nodup_append, h, hnot]

theorem mapGet_eq_of_mem (m : List (Int × Nat)) (k : Int) (v : Nat)
    (hnd : (mapKeys m).Nodup) (hm : (k, v) ∈ m) : mapGet m k = v := by
  induction m with
  | nil => cases hm
  | cons e rest ih =>
    obtain ⟨a, w⟩ := e
    rw [mapKeys, List.map_cons, List.nodup_cons] at hnd
    rcases List.mem_cons.mp hm with h | h
    · injection h with h1 h2
      subst h1
      subst h2
      simp [mapGet]
    · have hk : k ∈ List.map Prod.fst rest := List.mem_map_of_mem Prod.fst h
      have hak : ¬a = k := fun hEq => hnd.1 (by rw [hEq]; exact hk)
      simp only [mapGet, if_neg hak]
      exact ih hnd.2 h

/-- Embedding of `InProgressStats` (src/txnstats.go:38-43). -/
structure InProgressStats where
  States : List (Int × Nat)
  MaxOps : Nat
  TotalOps : Nat
  TotalTxns : Nat
  deriving Repr, DecidableEq

/-- The loop body of `getInProgressStats` (src/txnstats.go:129-136): for
each streamed transaction document bump `TotalTxns`, add the operation-list
length to `TotalOps`, update `MaxOps`, and bump `States[doc.State]`. -/
def inProgLoop : List txnDoc → InProgressStats → InProgressStats
  | [], stats => stats
  | d :: rest, stats =>
    inProgLoop rest
      { stats with
        TotalTxns := stats.TotalTxns + 1,
        TotalOps := stats.TotalOps + d.Ops.length,
        MaxOps := if d.Ops.length > stats.MaxOps then d.Ops.length
                  else stats.MaxOps,
        States := mapIncr stats.States d.State }

/-- The pure part of `getInProgressStats` (src/txnstats.go:124-141): start
from the freshly made empty `States` map and zero counters. -/
def inProgStatsOf (docs : List txnDoc) : InProgressStats :=
  inProgLoop docs ⟨[], 0, 0, 0⟩

/-- Operation-list lengths of a streamed transaction-document list. -/
def opLens (docs : List txnDoc) : List Nat :=
  docs.map (fun d => d.Ops.length)

/-- The `States` map after streaming `docs` into the map `m`. -/
def statesAfter (docs : List txnDoc) (m : List (Int × Nat)) :
    List (Int × Nat) :=
  docs.foldl (fun m d => mapIncr m d.State) m

theorem inProgLoop_spec (docs : List txnDoc) (s : InProgressStats) :
    inProgLoop docs s =
      { States := statesAfter docs s.States,
        MaxOps := (opLens docs).foldl max s.MaxOps,
        TotalOps := s.TotalOps + (opLens docs).sum,
        TotalTxns := s.TotalTxns + docs.length } := by
  induction docs generalizing s with
  | nil => simp [inProgLoop, statesAfter, opLens]
  | cons d rest ih =>
    simp only [inProgLoop, statesAfter, opLens, List.map_cons,
      List.foldl_cons, List.length_cons, List.sum_cons, ite_gt_eq_max]
    rw [ih]
    dsimp only [statesAfter, opLens]
    congr 1 <;> omega

theorem mapGet_statesAfter (docs : List txnDoc) (m : List (Int × Nat))
    (k : Int) :
    mapGet (statesAfter docs m) k
      = mapGet m k + (docs.filter (fun d => d.State = k)).length := by
  induction docs generalizing m with
  | nil => simp [statesAfter]
  | cons d rest ih =>
    have hstep : statesAfter (d :: rest) m
        = statesAfter rest (mapIncr m d.State) := rfl
    rw [hstep, ih, mapGet_mapIncr]
    by_cases h : d.State = k
    · rw [if_pos h.symm]
      simp [List.filter_cons, h]
      omega
    · rw [if_neg (fun hk => h hk.symm)]
      simp [List.filter_cons, h]

theorem mapVals_sum_statesAfter (docs : List txnDoc)
    (m : List (Int × Nat)) :
    (mapVals (statesAfter docs m)).sum = (mapVals m).sum + docs.length := by
  induction docs generalizing m with
  | nil => simp [statesAfter]
  | cons d rest ih =>
    have hstep : statesAfter (d :: rest) m
        = statesAfter rest (mapIncr m d.State) := rfl
    rw [hstep, ih, mapVals_sum_mapIncr, List.length_cons]
    omega

theorem mapHasKey_statesAfter (docs : List txnDoc) (m : List (Int × Nat))
    (k : Int) :
    mapHasKey (statesAfter docs m) k = true ↔
      (mapHasKey m k = true ∨ ∃ d ∈ docs, d.State = k) := by
  induction docs generalizing m with
  | nil => simp [statesAfter]
  | cons d rest ih =>
    have hstep : statesAfter (d :: rest) m
        = statesAfter rest (mapIncr m d.State) := rfl
    rw [hstep, ih]
    constructor
    · rintro (h | h)
      · rcases (mapHasKey_mapIncr m d.State k).mp h with h | h
        · exact Or.inl h
        · exact Or.inr ⟨d, List.mem_cons_self d rest, h.symm ▸ rfl⟩
      · obtain ⟨d', hd', hs⟩ := h
        exact Or.inr ⟨d', List.mem_cons_of_mem d hd', hs⟩
    · rintro (h | h)
      · exact Or.inl ((mapHasKey_mapIncr m d.State k).mpr (Or.inl h))
      · obtain ⟨d', hd', hs⟩ := h
        rcases List.mem_cons.mp hd' with hh | hh
        · subst hh
          exact Or.inl ((mapHasKey_mapIncr m d'.State k).mpr (Or.inr hs.symm))
        · exact Or.inr ⟨d', hh, hs⟩

theorem mapKeys_nodup_statesAfter (docs : List txnDoc)
    (m : List (Int × Nat)) (h : (mapKeys m).Nodup) :
    (mapKeys (statesAfter docs m)).Nodup := by
  induction docs generalizing m with
  | nil => exact h
  | cons d rest ih =>
    have hstep : statesAfter (d :: rest) m
        = statesAfter rest (mapIncr m d.State) := rfl
    rw [hstep]
    exact ih _ (mapKeys_nodup_mapIncr m d.State h)

/-- **C2.** For every finite stream of transaction documents scanned by
`getInProgressStats`: `TotalTxns = n`, the values stored in `States` sum to
`n`, each stored entry counts exactly the documents carrying its state
code, `TotalOps` is the sum of the operation-list lengths, and `MaxOps` is
the largest operation-list length seen (`0` when `n = 0`). -/
theorem getInProgressStats_spec (docs : List txnDoc) :
    (inProgStatsOf docs).TotalTxns = docs.length ∧
    (mapVals (inProgStatsOf docs).States).sum = docs.length ∧
    (∀ k v, (k, v) ∈ (inProgStatsOf docs).States →
      v = (docs.filter (fun d => d.State = k)).length) ∧
    (inProgStatsOf docs).TotalOps = (opLens docs).sum ∧
    (∀ d ∈ docs, d.Ops.length ≤ (inProgStatsOf docs).MaxOps) ∧
    (docs = [] → (inProgStatsOf docs).MaxOps = 0) ∧
    (docs ≠ [] → (inProgStatsOf docs).MaxOps ∈ opLens docs) := by
  have hmain : inProgStatsOf docs =
      { States := statesAfter docs [],
        MaxOps := (opLens docs).foldl max 0,
        TotalOps := 0 + (opLens docs).sum,
        TotalTxns := 0 + docs.length } := inProgLoop_spec docs ⟨[], 0, 0, 0⟩
  rw [hmain]
  dsimp only
  refine ⟨by omega, ?_, ?_, by omega, ?_, ?_, ?_⟩
  · rw [mapVals_sum_statesAfter]
    simp [mapVals]
  · intro k v hmem
    have hnd : (mapKeys (statesAfter docs [])).Nodup :=
      mapKeys_nodup_statesAfter docs [] (by simp [mapKeys])
    have hget := mapGet_eq_of_mem _ k v hnd hmem
    have hcount := mapGet_statesAfter docs [] k
    rw [hget] at hcount
    simpa [mapGet] using hcount
  · intro d hd
    exact mem_le_foldl_max _ _ _ (List.mem_map_of_mem _ hd)
  · intro h
    subst h
    rfl
  · intro hne
    rcases foldl_max_mem (opLens docs) 0 with h | h
    · cases docs with
      | nil => exact absurd rfl hne
      | cons d rest =>
        have hd : d.Ops.length ≤ (opLens (d :: rest)).foldl max 0 :=
          mem_le_foldl_max _ _ _ (by simp [opLens])
        rw [h] at hd
        rw [h, ← Nat.le_zero.mp hd]
        simp [opLens]
    · exact h

/-- A three-document transaction stream used to exercise
`getInProgressStats`: two documents in state `2` (prepared), one in the
out-of-range state `7`, with operation lists of lengths 2, 0 and 1. -/
def demoTxnDocs : List txnDoc :=
  [⟨"t1", 2, [⟨"accounts", "x"⟩, ⟨"accounts", "y"⟩], ""⟩,
   ⟨"t2", 7, [], ""⟩,
   ⟨"t3", 2, [⟨"machines", "z"⟩], ""⟩]

/-- Concrete check of `getInProgressStats_spec` on `demoTxnDocs`. -/
theorem getInProgressStats_spec_witness :
    ((2, 2) ∈ (inProgStatsOf demoTxnDocs).States ∧
      (2 : Nat) = (demoTxnDocs.filter (fun d => d.State = 2)).length ∧
      demoTxnDocs ≠ [] ∧
      (inProgStatsOf demoTxnDocs).MaxOps ∈ opLens demoTxnDocs) :=
  ⟨by decide,
   (getInProgressStats_spec demoTxnDocs).2.2.1 2 2 (by decide),
   by decide,
   (getInProgressStats_spec demoTxnDocs).2.2.2.2.2.2 (by decide)⟩

/-- **C3 (counterexample).** At the empty stream the `States` map returned
by `getInProgressStats` is the freshly made empty map: it has no entry for
the state code `invalid` (0), so it does not contain an entry for each of
the seven lifecycle states. -/
theorem states_all_seven_counterexample :
    (inProgStatsOf []).States = [] ∧
    mapHasKey (inProgStatsOf []).States tinvalid = false :=
  ⟨rfl, rfl⟩

/-- **C3 (amended).** The `States` map produced by the transaction scanner
contains an entry for a state code iff some scanned document carries that
code; a state (named or not) that no document carries is absent, and a read
of an absent key yields the Go zero default. -/
theorem states_key_iff_seen (docs : List txnDoc) (k : Int) :
    mapHasKey (inProgStatsOf docs).States k = true ↔
      ∃ d ∈ docs, d.State = k := by
  have hmain : inProgStatsOf docs =
      { States := statesAfter docs [],
        MaxOps := (opLens docs).foldl max 0,
        TotalOps := 0 + (opLens docs).sum,
        TotalTxns := 0 + docs.length } := inProgLoop_spec docs ⟨[], 0, 0, 0⟩
  rw [hmain]
  dsimp only
  rw [mapHasKey_statesAfter]
  simp [mapHasKey]

/-! ### The aggregation pipeline of `main` (src/txnstats.go:45-112)

The MongoDB database is modelled as the data the run observes: the
collections (each with its name, the document stream its cursor yields, and
an optional mid-stream cursor error reported by `iter.Err()`), the `txns`
collection stream, and the `txns.log` count.  `errgo.Notef` is modelled by
its rendered message `msg ++ ": " ++ cause`; `parallel.Run.Wait` returns
the collected scan-unit errors, and `log.Fatal` on a non-empty error list
is the `.error` branch, taken before the report map is assembled. -/

/-- Embedding of Go `strings.HasPrefix(s, pre)` (byte-wise comparison,
modelled on the character list). -/
def goHasPrefix (s pre : String) : Bool := pre.data.isPrefixOf s.data

/-- Embedding of `wantCollectionStats` (src/txnstats.go:110-112). -/
def wantCollectionStats (collName : String) : Bool :=
  collName != "txns" && !(goHasPrefix collName "system.")

/-- Go `<` on strings (byte-wise lexicographic order, modelled on the
character values), as used by `sort.Strings`. -/
def charListLt : List Char → List Char → Bool
  | [], [] => false
  | [], _ :: _ => true
  | _ :: _, [] => false
  | a :: as, b :: bs =>
    if a.val < b.val then true
    else if b.val < a.val then false
    else charListLt as bs

/-- `a < b` for Go strings. -/
def strLess (a b : String) : Bool := charListLt a.data b.data

/-- A collection as the run observes it: its name, the documents its
cursor streams, and an optional cursor error after the stream. -/
structure Collection where
  name : String
  docs : List docDoc
  iterErr : Option String
  deriving Repr, DecidableEq

/-- Insert a collection into a name-sorted list (ascending). -/
def insertByName (c : Collection) : List Collection → List Collection
  | [] => [c]
  | d :: rest =>
    if strLess d.name c.name then d :: insertByName c rest else c :: d :: rest

/-- `sort.Strings(collNames)` (src/txnstats.go:56): the run visits the
collections in ascending name order. -/
def sortByName : List Collection → List Collection
  | [] => []
  | c :: rest => insertByName c (sortByName rest)

/-- The database as the run observes it. -/
structure DB where
  colls : List Collection
  txnsDocs : List txnDoc
  txnsIterErr : Option String
  txnsLogCount : Nat
  txnsLogCountErr : Option String
  deriving Repr, DecidableEq

/-- `errgo.Notef(err, msg)` rendered as a message chain. -/
def notef (msg cause : String) : String := msg ++ ": " ++ cause

/-- `getCollectionStats` (src/txnstats.go:143-170) with its error path:
on a cursor error the iteration fails with a message naming the
collection (`iteraction over collection %q failed`). -/
def getCollectionStatsE (c : Collection) : Except String CollectionStats :=
  match c.iterErr with
  | some e =>
      .error (notef ("iteraction over collection \"" ++ c.name ++ "\" failed") e)
  | none => .ok (collStatsOf c.docs)

/-- `getLogStats` (src/txnstats.go:114-122) applied to `db.C("txns.log")`:
a count, or an error naming the collection. -/
def getLogStatsE (db : DB) : Except String LogStats :=
  match db.txnsLogCountErr with
  | some e =>
      .error (notef ("cannot count items in collection \"txns.log\"") e)
  | none => .ok ⟨db.txnsLogCount⟩

/-- `getInProgressStats` (src/txnstats.go:124-141) applied to
`db.C("txns")`, with its error path. -/
def getInProgressStatsE (db : DB) : Except String InProgressStats :=
  match db.txnsIterErr with
  | some e =>
      .error (notef ("iteraction over collection \"txns\" failed") e)
  | none => .ok (inProgStatsOf db.txnsDocs)

/-- The error (if any) of one per-collection scan unit
(src/txnstats.go:64-73): a failed `getCollectionStats` is wrapped with
`cannot gather stats on %s: %v`. -/
def collScanError (c : Collection) : Option String :=
  match getCollectionStatsE c with
  | .error e =>
      some (notef ("cannot gather stats on " ++ c.name ++ ": " ++ e) e)
  | .ok _ => none

/-- The errors `run.Wait()` (src/txnstats.go:95) collects: one per failed
eligible collection scan, plus the `txns.log` count unit and the `txns`
scan unit. -/
def runErrors (db : DB) : List String :=
  ((sortByName db.colls).filterMap fun c =>
    if wantCollectionStats c.name then collScanError c else none)
  ++ (match getLogStatsE db with
      | .error e => [e]
      | .ok _ => [])
  ++ (match getInProgressStatsE db with
      | .error e => [e]
      | .ok _ => [])

/-- `m[k] = v` on the Go report map. -/
def reportSet (m : List (String × CollectionStats)) (k : String)
    (v : CollectionStats) : List (String × CollectionStats) :=
  match m with
  | [] => [(k, v)]
  | (a, w) :: rest =>
    if a = k then (a, v) :: rest else (a, w) :: reportSet rest k v

/-- Key membership in the report map. -/
def reportHasKey (m : List (String × CollectionStats)) (k : String) : Bool :=
  match m with
  | [] => false
  | (a, _) :: rest => if a = k then true else reportHasKey rest k

/-- Embedding of `Stats` (src/txnstats.go:20-24). -/
structure Stats where
  Collections : List (String × CollectionStats)
  InProgress : InProgressStats
  Log : LogStats
  deriving Repr, DecidableEq

/-- One step of the merge loop (src/txnstats.go:98-105): an eligible
collection whose `TotalQueued` is positive is written into the report map
under its name; everything else is skipped. -/
def mergeStep (m : List (String × CollectionStats)) (c : Collection) :
    List (String × CollectionStats) :=
  if wantCollectionStats c.name then
    if (collStatsOf c.docs).TotalQueued > 0 then
      reportSet m c.name (collStatsOf c.docs)
    else m
  else m

/-- The merge loop over the scanned collections, in visit order. -/
def mergeCollections (colls : List Collection) :
    List (String × CollectionStats) :=
  colls.foldl mergeStep []

/-- `main` after a successful dial (src/txnstats.go:51-108): run the scan
units, and either fail with the collected errors (`log.Fatal`, before the
report map is assembled) or assemble and return the report. -/
def mainRun (db : DB) : Except (List String) Stats :=
  if runErrors db = [] then
    .ok { Collections := mergeCollections (sortByName db.colls),
          InProgress := inProgStatsOf db.txnsDocs,
          Log := ⟨db.txnsLogCount⟩ }
  else
    .error (runErrors db)

theorem insertByName_perm (c : Collection) (l : List Collection) :
    List.Perm (insertByName c l) (c :: l) := by
  induction l with
  | nil => exact List.Perm.refl _
  | cons d rest ih =>
    by_cases h : strLess d.name c.name
    · simp only [insertByName, if_pos h]
      exact (ih.cons d).trans (List.Perm.swap c d rest)
    · simp only [insertByName, if_neg h]
      exact List.Perm.refl _

theorem sortByName_perm (l : List Collection) :
    List.Perm (sortByName l) l := by
  induction l with
  | nil => exact List.Perm.refl _
  | cons c rest ih =>
    exact (insertByName_perm c (sortByName rest)).trans (ih.cons c)

theorem mem_sortByName (c : Collection) (l : List Collection) :
    c ∈ sortByName l ↔ c ∈ l :=
  (sortByName_perm l).mem_iff

theorem sortByName_names_nodup (l : List Collection)
    (h : (l.map Collection.name).Nodup) :
    ((sortByName l).map Collection.name).Nodup :=
  (((sortByName_perm l).map Collection.name).nodup_iff).mpr h

theorem reportHasKey_reportSet (m : List (String × CollectionStats))
    (k : String) (v : CollectionStats) (j : String) :
    reportHasKey (reportSet m k v) j = true ↔
      (reportHasKey m j = true ∨ j = k) := by
  induction m with
  | nil =>
    by_cases h : j = k
    · subst h
      simp [reportSet, reportHasKey]
    · simp [reportSet, reportHasKey, h, Ne.symm h]
  | cons e rest ih =>
    obtain ⟨a, w⟩ := e
    by_cases hak : a = k
    · subst hak
      by_cases hja : j = a
      · subst hja
        simp [reportSet, reportHasKey]
      · simp [reportSet, reportHasKey, hja, Ne.symm hja]
    · by_cases hja : j = a
      · subst hja
        simp [reportSet, reportHasKey, hak]
      · simp [reportSet, reportHasKey, hak, Ne.symm hja, hja, ih]

theorem mergeFold_hasKey (colls : List Collection)
    (m : List (String × CollectionStats)) (k : String) :
    reportHasKey (colls.foldl mergeStep m) k = true ↔
      (reportHasKey m k = true ∨
        ∃ c ∈ colls, c.name = k ∧ wantCollectionStats c.name = true ∧
          0 < (collStatsOf c.docs).TotalQueued) := by
  induction colls generalizing m with
  | nil => simp
  | cons c rest ih =>
    rw [List.foldl_cons, ih]
    constructor
    · rintro (h | h)
      · unfold mergeStep at h
        by_cases hw : wantCollectionStats c.name
        · by_cases hq : (collStatsOf c.docs).TotalQueued > 0
          · rw [if_pos hw, if_pos hq] at h
            rcases (reportHasKey_reportSet m c.name _ k).mp h with h | h
            · exact Or.inl h
            · exact Or.inr ⟨c, List.mem_cons_self c rest, h.symm, hw, hq⟩
          · rw [if_pos hw, if_neg hq] at h
            exact Or.inl h
        · rw [if_neg hw] at h
          exact Or.inl h
      · obtain ⟨c', hc', hname, hw', hq'⟩ := h
        exact Or.inr ⟨c', List.mem_cons_of_mem c hc', hname, hw', hq'⟩
    · rintro (h | h)
      · left
        unfold mergeStep
        by_cases hw : wantCollectionStats c.name
        · by_cases hq : (collStatsOf c.docs).TotalQueued > 0
          · rw [if_pos hw, if_pos hq]
            exact (reportHasKey_reportSet m c.name _ k).mpr (Or.inl h)
          · rw [if_pos hw, if_neg hq]
            exact h
        · rw [if_neg hw]
          exact h
      · obtain ⟨c', hc', hname, hw', hq'⟩ := h
        rcases List.mem_cons.mp hc' with hh | hh
        · subst hh
          left
          unfold mergeStep
          rw [if_pos hw', if_pos hq']
          exact (reportHasKey_reportSet m c'.name _ k).mpr (Or.inr hname.symm)
        · exact Or.inr ⟨c', hh, hname, hw', hq'⟩

theorem mergeCollections_hasKey (colls : List Collection) (k : String) :
    reportHasKey (mergeCollections colls) k = true ↔
      ∃ c ∈ colls, c.name = k ∧ wantCollectionStats c.name = true ∧
        0 < (collStatsOf c.docs).TotalQueued := by
  rw [mergeCollections, mergeFold_hasKey]
  simp [reportHasKey]

theorem mainRun_ok_collections (db : DB) (st : Stats)
    (h : mainRun db = .ok st) :
    st.Collections = mergeCollections (sortByName db.colls) := by
  unfold mainRun at h
  split at h
  · injection h with h2
    rw [← h2]
  · exact absurd h (by simp)

theorem mergeCollections_key_iff (colls : List Collection)
    (hnd : (colls.map Collection.name).Nodup)
    (c : Collection) (hc : c ∈ colls)
    (hw : wantCollectionStats c.name = true) :
    (reportHasKey (mergeCollections (sortByName colls)) c.name = true ↔
      0 < (collStatsOf c.docs).TotalQueued) := by
  rw [mergeCollections_hasKey]
  constructor
  · rintro ⟨c', hc', hname, hw', hq'⟩
    have hc'' : c' ∈ colls := (mem_sortByName c' colls).mp hc'
    have hcc : c' = c := List.inj_on_of_nodup_map hnd hc'' hc hname
    rw [← hcc]
    exact hq'
  · intro hq
    exact ⟨c, (mem_sortByName c colls).mpr hc, rfl, hw, hq⟩

/-- **C5.** If the cursor of any eligible collection fails mid-stream, the
run terminates on the error branch — before the report map is assembled —
with an error list containing a message that names the offending
collection. -/
theorem scan_failure_aborts_run (db : DB) (c : Collection) (e : String)
    (hc : c ∈ db.colls) (hw : wantCollectionStats c.name = true)
    (he : c.iterErr = some e) :
    ∃ errs, mainRun db = .error errs ∧
      ∃ msg ∈ errs, ∃ pre post, msg = pre ++ c.name ++ post := by
  have hmsg : collScanError c =
      some (notef ("cannot gather stats on " ++ c.name ++ ": " ++
          notef ("iteraction over collection \"" ++ c.name ++ "\" failed") e)
        (notef ("iteraction over collection \"" ++ c.name ++ "\" failed") e)) := by
    simp only [collScanError, getCollectionStatsE, he]
  have hmem1 : (notef ("cannot gather stats on " ++ c.name ++ ": " ++
          notef ("iteraction over collection \"" ++ c.name ++ "\" failed") e)
        (notef ("iteraction over collection \"" ++ c.name ++ "\" failed") e)) ∈
      (sortByName db.colls).filterMap
        (fun c => if wantCollectionStats c.name then collScanError c
                  else none) := by
    refine List.mem_filterMap.mpr ⟨c, (mem_sortByName c db.colls).mpr hc, ?_⟩
    rw [if_pos hw, hmsg]
  have hmem : (notef ("cannot gather stats on " ++ c.name ++ ": " ++
          notef ("iteraction over collection \"" ++ c.name ++ "\" failed") e)
        (notef ("iteraction over collection \"" ++ c.name ++ "\" failed") e)) ∈
      runErrors db := by
    unfold runErrors
    exact List.mem_append_left _ (List.mem_append_left _ hmem1)
  have hne : runErrors db ≠ [] := List.ne_nil_of_mem hmem
  refine ⟨runErrors db, ?_, ?_⟩
  · unfold mainRun
    rw [if_neg hne]
  · refine ⟨_, hmem, "cannot gather stats on ",
      ": " ++ notef ("iteraction over collection \"" ++ c.name ++ "\" failed") e
        ++ ": " ++
        notef ("iteraction over collection \"" ++ c.name ++ "\" failed") e, ?_⟩
    simp [notef, String.append_assoc]

/-- Concrete check of `scan_failure_aborts_run`: a single collection
`"foo"` whose cursor fails with a disk read error. -/
theorem scan_failure_aborts_run_witness :
    ((⟨"foo", [], some "disk read error"⟩ : Collection) ∈
        ([⟨"foo", [], some "disk read error"⟩] : List Collection) ∧
      wantCollectionStats "foo" = true) ∧
    (∃ errs,
      mainRun ⟨[⟨"foo", [], some "disk read error"⟩], [], none, 0, none⟩ =
        .error errs ∧
      ∃ msg ∈ errs, ∃ pre post, msg = pre ++ "foo" ++ post) :=
  ⟨⟨by decide, by decide⟩,
   scan_failure_aborts_run
     ⟨[⟨"foo", [], some "disk read error"⟩], [], none, 0, none⟩
     ⟨"foo", [], some "disk read error"⟩ "disk read error"
     (by decide) (by decide) rfl⟩

/-- **C6.** Neither `"txns"` nor any name with the `"system."` prefix is
ever a key of the report's per-collection map: the eligibility filter
rejects such names. -/
theorem report_excludes_reserved (db : DB) (st : Stats)
    (h : mainRun db = .ok st) (collName : String)
    (hn : collName = "txns" ∨ goHasPrefix collName "system." = true) :
    reportHasKey st.Collections collName = false := by
  rw [mainRun_ok_collections db st h]
  have hwf : wantCollectionStats collName = false := by
    rcases hn with h | h
    · subst h
      decide
    · simp [wantCollectionStats, h]
  cases hb : reportHasKey (mergeCollections (sortByName db.colls)) collName with
  | false => rfl
  | true =>
    obtain ⟨c, _, hname, hw, _⟩ := (mergeCollections_hasKey _ _).mp hb
    rw [hname, hwf] at hw
    cases hw

/-- Concrete check of `report_excludes_reserved`: a successful run over one
ordinary collection has no `"system.indexes"` key. -/
theorem report_excludes_reserved_witness :
    mainRun ⟨[⟨"machines", [⟨["a"]⟩], none⟩], [], none, 0, none⟩ =
      .ok ⟨[("machines", ⟨1, 1, 1, 1⟩)], ⟨[], 0, 0, 0⟩, ⟨0⟩⟩ ∧
    ("system.indexes" = "txns" ∨
      goHasPrefix "system.indexes" "system." = true) ∧
    reportHasKey
      (Stats.mk [("machines", ⟨1, 1, 1, 1⟩)] ⟨[], 0, 0, 0⟩ ⟨0⟩).Collections
      "system.indexes" = false :=
  ⟨rfl, Or.inr (by decide),
   report_excludes_reserved
     ⟨[⟨"machines", [⟨["a"]⟩], none⟩], [], none, 0, none⟩
     ⟨[("machines", ⟨1, 1, 1, 1⟩)], ⟨[], 0, 0, 0⟩, ⟨0⟩⟩
     rfl "system.indexes" (Or.inr (by decide))⟩

/-- **C7.** On a successful run (with the collection names distinct, as
`CollectionNames` guarantees), a scanned eligible collection's name is a
key of the report's per-collection map iff its computed `TotalQueued` is
strictly positive. -/
theorem report_key_iff_totalQueued_pos (db : DB) (st : Stats)
    (h : mainRun db = .ok st)
    (hnd : (db.colls.map Collection.name).Nodup)
    (c : Collection) (hc : c ∈ db.colls)
    (hw : wantCollectionStats c.name = true) :
    (reportHasKey st.Collections c.name = true ↔
      0 < (collStatsOf c.docs).TotalQueued) := by
  rw [mainRun_ok_collections db st h]
  exact mergeCollections_key_iff db.colls hnd c hc hw

/-- Concrete check of `report_key_iff_totalQueued_pos` on a run over one
collection `"foo"` with one queued token. -/
theorem report_key_iff_totalQueued_pos_witness :
    mainRun ⟨[⟨"foo", [⟨["t"]⟩], none⟩], [], none, 0, none⟩ =
      .ok ⟨[("foo", ⟨1, 1, 1, 1⟩)], ⟨[], 0, 0, 0⟩, ⟨0⟩⟩ ∧
    (([⟨"foo", [⟨["t"]⟩], none⟩] : List Collection).map
      Collection.name).Nodup ∧
    wantCollectionStats "foo" = true ∧
    (reportHasKey ([("foo", ⟨1, 1, 1, 1⟩)] :
        List (String × CollectionStats)) "foo" = true ↔
      0 < (collStatsOf [⟨["t"]⟩]).TotalQueued) :=
  ⟨rfl, by decide, by decide,
   report_key_iff_totalQueued_pos
     ⟨[⟨"foo", [⟨["t"]⟩], none⟩], [], none, 0, none⟩
     ⟨[("foo", ⟨1, 1, 1, 1⟩)], ⟨[], 0, 0, 0⟩, ⟨0⟩⟩ rfl (by decide)
     ⟨"foo", [⟨["t"]⟩], none⟩ (by decide) (by decide)⟩

/-- **C9.** `"txns.log"` passes the eligibility filter, so besides being
counted by the log scanner it is scanned like any ordinary collection, and
on a successful run (distinct names) it is a key of the report's
per-collection map iff its `TotalQueued` is positive. -/
theorem txns_log_scanned_and_reported (db : DB) (st : Stats)
    (h : mainRun db = .ok st)
    (hnd : (db.colls.map Collection.name).Nodup)
    (c : Collection) (hc : c ∈ db.colls) (hname : c.name = "txns.log") :
    wantCollectionStats "txns.log" = true ∧
    (reportHasKey st.Collections "txns.log" = true ↔
      0 < (collStatsOf c.docs).TotalQueued) := by
  have hw : wantCollectionStats c.name = true := by
    rw [hname]
    decide
  refine ⟨by decide, ?_⟩
  rw [← hname, mainRun_ok_collections db st h]
  exact mergeCollections_key_iff db.colls hnd c hc hw

/-- Concrete check of `txns_log_scanned_and_reported` on a run where
`"txns.log"` holds one document with one queued token. -/
theorem txns_log_scanned_and_reported_witness :
    mainRun ⟨[⟨"txns.log", [⟨["x"]⟩], none⟩], [], none, 5, none⟩ =
      .ok ⟨[("txns.log", ⟨1, 1, 1, 1⟩)], ⟨[], 0, 0, 0⟩, ⟨5⟩⟩ ∧
    (wantCollectionStats "txns.log" = true ∧
      (reportHasKey ([("txns.log", ⟨1, 1, 1, 1⟩)] :
          List (String × CollectionStats)) "txns.log" = true ↔
        0 < (collStatsOf [⟨["x"]⟩]).TotalQueued)) :=
  ⟨rfl,
   txns_log_scanned_and_reported
     ⟨[⟨"txns.log", [⟨["x"]⟩], none⟩], [], none, 5, none⟩
     ⟨[("txns.log", ⟨1, 1, 1, 1⟩)], ⟨[], 0, 0, 0⟩, ⟨5⟩⟩ rfl (by decide)
     ⟨"txns.log", [⟨["x"]⟩], none⟩ (by decide) rfl⟩

/-! ### Command-line handling (src/txnstats.go:172-201) -/

/-- Embedding of `commandLineArgs` (src/txnstats.go:172-178). -/
structure commandLineArgs where
  hostname : String
  port : String
  ssl : Bool
  username : String
  password : String
  deriving Repr, DecidableEq

/-- The flag values supplied on the command line; `none` means the flag
was omitted, so its registered default applies. -/
structure Flags where
  hostname : Option String
  port : Option String
  ssl : Option Bool
  username : Option String
  password : Option String
  deriving Repr, DecidableEq

/-- Flag parsing in `commandLine` (src/txnstats.go:183-194) with the
registered defaults: `localhost`, `37017`, `true`, `admin`, `""`. -/
def parseFlags (f : Flags) : commandLineArgs :=
  { hostname := f.hostname.getD "localhost",
    port := f.port.getD "37017",
    ssl := f.ssl.getD true,
    username := f.username.getD "admin",
    password := f.password.getD "" }

/-- Outcome of `commandLine` (src/txnstats.go:180-201): either
`os.Exit(2)` after printing to stderr, or the parsed arguments. -/
inductive CommandLineResult where
  | exitCode (code : Nat) (stderr : String)
  | parsed (a : commandLineArgs)
  deriving Repr, DecidableEq

/-- Embedding of `commandLine` (src/txnstats.go:180-201): parse the flags,
then reject an empty password combined with a non-empty username. -/
def commandLine (f : Flags) : CommandLineResult :=
  let a := parseFlags f
  if a.password == "" && a.username != "" then
    .exitCode 2 "error: -password must be used if username is provided\n"
  else
    .parsed a

/-- The start of `main` (src/txnstats.go:45-50): `commandLine()` runs
first, and `dial` is attempted only when it returns parsed arguments, so
the `configError` outcome happens before any network activity. -/
inductive MainStart where
  | configError (code : Nat) (stderr : String)
  | dialing (args : commandLineArgs)
  deriving Repr, DecidableEq

/-- `main` up to the dial. -/
def mainStart (f : Flags) : MainStart :=
  match commandLine f with
  | .exitCode code msg => .configError code msg
  | .parsed a => .dialing a

/-- **C8.** Any command line whose parsed username is non-empty and whose
parsed password is empty makes the run exit with status 2 and the
configuration-error message, without ever reaching the dial. -/
theorem missing_password_config_error (f : Flags)
    (hu : (parseFlags f).username ≠ "")
    (hp : (parseFlags f).password = "") :
    (mainStart f =
      .configError 2
        "error: -password must be used if username is provided\n" ∧
      (∀ a, mainStart f ≠ .dialing a) ∧ (2 : Nat) ≠ 0) := by
  have hb : ((parseFlags f).password == ""
      && (parseFlags f).username != "") = true := by
    rw [Bool.and_eq_true, beq_iff_eq, bne_iff_ne]
    exact ⟨hp, hu⟩
  have hmain : mainStart f =
      .configError 2
        "error: -password must be used if username is provided\n" := by
    simp only [mainStart, commandLine]
    rw [if_pos hb]
  refine ⟨hmain, ?_, by decide⟩
  intro a hcontra
  rw [hmain] at hcontra
  cases hcontra

/-- Concrete check of `missing_password_config_error`: `-username bob`
with no `-password`. -/
theorem missing_password_config_error_witness :
    ((parseFlags ⟨none, none, none, some "bob", none⟩).username ≠ "" ∧
      (parseFlags ⟨none, none, none, some "bob", none⟩).password = "") ∧
    (mainStart ⟨none, none, none, some "bob", none⟩ =
        .configError 2
          "error: -password must be used if username is provided\n" ∧
      (∀ a, mainStart ⟨none, none, none, some "bob", none⟩ ≠ .dialing a) ∧
      (2 : Nat) ≠ 0) :=
  ⟨⟨by decide, rfl⟩,
   missing_password_config_error ⟨none, none, none, some "bob", none⟩
     (by decide) rfl⟩

/-- **C10.** With no flags at all, the username flag defaults to `admin`
and the password flag to the empty string, so the default invocation
takes the configuration-error path: stderr message, exit status 2, no
dial. -/
theorem default_invocation_config_error :
    (parseFlags ⟨none, none, none, none, none⟩).username = "admin" ∧
    (parseFlags ⟨none, none, none, none, none⟩).password = "" ∧
    mainStart ⟨none, none, none, none, none⟩ =
      .configError 2
        "error: -password must be used if username is provided\n" :=
  ⟨rfl, rfl, rfl⟩

end Txnstats
